import Mathlib

/-!
Shallow embedding of the wallet / referral bookkeeping core of the
repository (an Express + in-memory `MemStorage` application).

Sources embedded:
* `src/server/storage.ts` — `MemStorage`: users, transactions,
  `createUser`, `updateWalletBalance`, `createTransaction`,
  `processReferralReward`, `getReferralStats`, `getAdminStats`,
  `updateTransactionStatus`, `getUserByReferCode`, `getUser`.
* `src/server/routes.ts` / `src/unnamed/part_004` — the `POST /api/balance`
  deposit flow and the admin `POST /api/admin/update-transaction/:id` flow.
* `src/server/auth.ts` — the `POST /api/register` flow.

Modelling conventions:
* JS strings are `List Char` (`Str`); JS `Map` objects are association
  lists in insertion order; `map.set` replaces an existing key in place
  (preserving order) and appends otherwise, exactly as JS `Map.set` does.
* Monetary amounts are modelled as `ℤ`: the code stores amounts as
  decimal strings and round-trips them through `parseFloat`/`toString`;
  every amount constant in the flows under audit (30, 50, 100, 150) is
  integral, the claims concern exact arithmetic on such values, and JS
  float addition is exact at these magnitudes.
* `new Date()` timestamps are a `Nat` parameter `now`; `randomBytes(2)`
  in `generateReferCode` is a `Nat` parameter `rnd` (the drawn value).
* A thrown `Error` aborts the remaining steps of an operation but keeps
  the map mutations already performed (the route handlers catch and
  return 500); operations therefore return the partial state on the
  throwing paths.
-/

abbrev Str := List Char

/-- Transaction status: `"pending" | "approved" | "rejected"`
(`src/shared/schema.ts`, `storage.ts`). -/
inductive TxStatus where
  | pending
  | approved
  | rejected
  deriving DecidableEq, Repr

/-- Transaction type: `"deposit" | "referral_bonus"` (`schema.ts`). -/
inductive TxType where
  | deposit
  | referral_bonus
  deriving DecidableEq, Repr

/-- `User` record (`src/shared/schema.ts`): `referralRewardClaimed` is the
text field holding `"no"` / `"yes"`, kept as a string as in the source. -/
structure User where
  id : Nat
  username : Str
  password : Str
  walletBalance : ℤ
  referCode : Str
  referredBy : Option Str
  referralRewardClaimed : Str
  deriving DecidableEq, Repr

/-- `Transaction` record (`src/shared/schema.ts`). -/
structure Txn where
  id : Nat
  userId : Nat
  amount : ℤ
  utrNumber : Str
  status : TxStatus
  createdAt : Nat
  type : TxType
  deriving DecidableEq, Repr

/-- The mutable state of `MemStorage` (`src/server/storage.ts`):
the two `Map`s (as insertion-ordered lists) and the two id counters. -/
structure MemStorage where
  users : List User
  transactions : List Txn
  currentId : Nat
  currentTransactionId : Nat
  deriving DecidableEq, Repr

/-- The freshly constructed store (`new MemStorage()`): empty maps,
both counters at 1. (The OTP-service catalog is static reference data
untouched by the claims and is omitted.) -/
def MemStorage.init : MemStorage :=
  { users := [], transactions := [], currentId := 1, currentTransactionId := 1 }

/-- JS `Map.set` on the users map keyed by `id`: replace in place if the
key is present (preserving insertion order), append otherwise. -/
def usersSet (l : List User) (id : Nat) (u : User) : List User :=
  if l.any (fun v => v.id = id) then
    l.map (fun v => if v.id = id then u else v)
  else
    l ++ [u]

/-- JS `Map.set` on the transactions map keyed by `id`. -/
def txnsSet (l : List Txn) (id : Nat) (t : Txn) : List Txn :=
  if l.any (fun v => v.id = id) then
    l.map (fun v => if v.id = id then t else v)
  else
    l ++ [t]

/-- `getUser(id)`: `this.users.get(id)`. -/
def getUser (s : MemStorage) (id : Nat) : Option User :=
  s.users.find? (fun u => u.id = id)

/-- `getUserByUsername(username)`: first user (in insertion order) with
that username. -/
def getUserByUsername (s : MemStorage) (username : Str) : Option User :=
  s.users.find? (fun u => u.username = username)

/-- `getUserByReferCode(referCode)`: first user (in insertion order)
whose `referCode` equals the argument. -/
def getUserByReferCode (s : MemStorage) (referCode : Str) : Option User :=
  s.users.find? (fun u => u.referCode = referCode)

/-- Uppercase hex digit for a nibble, as produced by
`randomBytes(2).toString('hex').toUpperCase()`. -/
def hexChar (m : Nat) : Char :=
  match m with
  | 0 => '0' | 1 => '1' | 2 => '2' | 3 => '3' | 4 => '4'
  | 5 => '5' | 6 => '6' | 7 => '7' | 8 => '8' | 9 => '9'
  | 10 => 'A' | 11 => 'B' | 12 => 'C' | 13 => 'D' | 14 => 'E'
  | _ => 'F'

/-- `generateReferCode()`: `` `USER${randomBytes(2).toString('hex').toUpperCase()}` ``.
The two random bytes are the parameter `rnd` (reduced mod 2^16); the
result is `USER` followed by four uppercase hex digits. -/
def generateReferCode (rnd : Nat) : Str :=
  let r := rnd % 65536
  ['U', 'S', 'E', 'R'] ++
    [hexChar (r / 4096 % 16), hexChar (r / 256 % 16),
     hexChar (r / 16 % 16), hexChar (r % 16)]

/-- `createUser(insertUser)`: takes the next id, initializes balance `"0"`,
a fresh refer code, `referredBy: insertUser.referredBy || null` (the JS
`||` sends the empty string to `null`), `referralRewardClaimed: "no"`. -/
def createUser (s : MemStorage) (username password : Str)
    (referredBy : Option Str) (rnd : Nat) : User × MemStorage :=
  let id := s.currentId
  let user : User :=
    { id := id
      username := username
      password := password
      walletBalance := 0
      referCode := generateReferCode rnd
      referredBy := match referredBy with
        | some c => if c = [] then none else some c
        | none => none
      referralRewardClaimed := ['n', 'o'] }
  (user, { s with users := usersSet s.users id user, currentId := id + 1 })

/-- `updateWalletBalance(userId, amount)`: `none` models the thrown
`Error("User not found")`; otherwise `balance += amount`. -/
def updateWalletBalance (s : MemStorage) (userId : Nat) (amount : ℤ) :
    Option (User × MemStorage) :=
  match getUser s userId with
  | none => none
  | some user =>
    let updatedUser := { user with walletBalance := user.walletBalance + amount }
    some (updatedUser, { s with users := usersSet s.users userId updatedUser })

/-- `createTransaction(userId, amount, utrNumber, type = "deposit")`:
next transaction id, status always `"pending"`, timestamp `now`. -/
def createTransaction (s : MemStorage) (userId : Nat) (amount : ℤ)
    (utrNumber : Str) (type : TxType) (now : Nat) : Txn × MemStorage :=
  let id := s.currentTransactionId
  let tx : Txn :=
    { id := id, userId := userId, amount := amount, utrNumber := utrNumber
      status := TxStatus.pending, createdAt := now, type := type }
  (tx, { s with transactions := txnsSet s.transactions id tx
                currentTransactionId := id + 1 })

/-- `processReferralReward(newUserId)` (`storage.ts` lines 142-170).
Guard: bail out if the user is absent, `referredBy` is falsy (null or
empty), or `referralRewardClaimed === "yes"`; then bail out if the
referrer's code resolves to no user. Otherwise: credit the referrer 30
and record a `referral_bonus` transaction, credit the referee 30 and
record a `referral_bonus` transaction, and finally store
`{ ...user, referralRewardClaimed: "yes" }` — note that `user` here is
the snapshot fetched at the top of the routine, so this last write
stores the referee's wallet balance as of that snapshot. -/
def processReferralReward (s : MemStorage) (newUserId : Nat) (now : Nat) :
    MemStorage :=
  match getUser s newUserId with
  | none => s
  | some user =>
    match user.referredBy with
    | none => s
    | some refBy =>
      if refBy = [] then s
      else if user.referralRewardClaimed = ['y', 'e', 's'] then s
      else
        match getUserByReferCode s refBy with
        | none => s
        | some referrer =>
          match updateWalletBalance s referrer.id 30 with
          | none => s
          | some (_, s1) =>
            let s2 := (createTransaction s1 referrer.id 30
              (['R', 'E', 'F', '_'] ++ user.username) TxType.referral_bonus now).2
            match updateWalletBalance s2 user.id 30 with
            | none => s2
            | some (_, s3) =>
              let s4 := (createTransaction s3 user.id 30
                ['R', 'E', 'F', '_', 'B', 'O', 'N', 'U', 'S']
                TxType.referral_bonus now).2
              let updatedUser := { user with referralRewardClaimed := ['y', 'e', 's'] }
              { s4 with users := usersSet s4.users user.id updatedUser }

/-- Result shape of `getReferralStats`. -/
structure ReferralStats where
  totalInvites : Nat
  successfulReferrals : Nat
  totalEarned : ℤ
  deriving DecidableEq, Repr

/-- Decimal digit character, as produced by JS `Number.prototype.toString()`
on a natural number. -/
def decChar (m : Nat) : Char :=
  match m with
  | 0 => '0' | 1 => '1' | 2 => '2' | 3 => '3' | 4 => '4'
  | 5 => '5' | 6 => '6' | 7 => '7' | 8 => '8' | _ => '9'

/-- Digits of a natural number, most significant first (`fuel` bounds the
recursion depth; `fuel = n` always suffices since `n / 10 < n` for `n ≠ 0`). -/
def natDigitsAux (fuel n : Nat) : List Char :=
  match fuel with
  | 0 => []
  | fuel + 1 => if n = 0 then [] else natDigitsAux fuel (n / 10) ++ [decChar (n % 10)]

/-- JS `userId.toString()` for a natural number: its decimal digit string. -/
def natToString (n : Nat) : Str :=
  if n = 0 then ['0'] else natDigitsAux n n

/-- `getReferralStats(userId)` (`storage.ts` lines 122-140):
`totalInvites` counts users whose `referredBy` string equals
`userId.toString()`; `successfulReferrals` / `totalEarned` range over the
caller's `referral_bonus` transactions with status `"approved"`. -/
def getReferralStats (s : MemStorage) (userId : Nat) : ReferralStats :=
  let referredUsers := s.users.filter
    (fun u => u.referredBy = some (natToString userId))
  let referralBonuses := s.transactions.filter
    (fun t => t.userId = userId ∧ t.type = TxType.referral_bonus ∧
      t.status = TxStatus.approved)
  { totalInvites := referredUsers.length
    successfulReferrals := referralBonuses.length
    totalEarned := referralBonuses.foldl (fun acc t => acc + t.amount) 0 }

/-- Result shape of `getAdminStats`. -/
structure AdminStats where
  totalUsers : Nat
  totalDeposits : ℤ
  todayDeposits : ℤ
  deriving DecidableEq, Repr

/-- `getAdminStats()` (`storage.ts` lines 433-461). `midnight` is the value
of `today.setHours(0,0,0,0)` — the current day's local midnight; the code
keeps the approved transactions whose `createdAt` is at or after it. -/
def getAdminStats (s : MemStorage) (midnight : Nat) : AdminStats :=
  let approvedTransactions := s.transactions.filter
    (fun t => t.status = TxStatus.approved)
  let todayTransactions := approvedTransactions.filter
    (fun t => midnight ≤ t.createdAt)
  { totalUsers := s.users.length
    totalDeposits := approvedTransactions.foldl (fun acc t => acc + t.amount) 0
    todayDeposits := todayTransactions.foldl (fun acc t => acc + t.amount) 0 }

/-- `updateTransactionStatus(transactionId, status)` (`storage.ts` lines
479-495). `status` ranges over `"approved" | "rejected"` (the TS type).
Returns `none` for the thrown `Error("Transaction not found")`; otherwise
stores `{ ...transaction, status }` unconditionally and credits the wallet
only when the new status is `"approved"` and the previous status was not.
If the wallet credit throws (owner not in the users map) the status write
survives and the partial state is returned with no transaction value. -/
def updateTransactionStatus (s : MemStorage) (transactionId : Nat)
    (status : TxStatus) : Option (Option Txn × MemStorage) :=
  match s.transactions.find? (fun t => t.id = transactionId) with
  | none => none
  | some transaction =>
    let updatedTransaction := { transaction with status := status }
    let s1 := { s with
      transactions := txnsSet s.transactions transactionId updatedTransaction }
    if status = TxStatus.approved ∧ transaction.status ≠ TxStatus.approved then
      match updateWalletBalance s1 transaction.userId transaction.amount with
      | none => some (none, s1)
      | some (_, s2) => some (some updatedTransaction, s2)
    else
      some (some updatedTransaction, s1)

/-- The admin route `POST /api/admin/update-transaction/:id`
(`src/unnamed/part_004` lines 39-66): calls `updateTransactionStatus`,
then — if the requested status is `"approved"` — credits the wallet again
with the transaction's amount, and runs `processReferralReward` when that
amount is at least 100. Any throw is caught and the route returns 500 with
the mutations so far kept. -/
def adminUpdateTransaction (s : MemStorage) (transactionId : Nat)
    (status : TxStatus) (now : Nat) : MemStorage :=
  match updateTransactionStatus s transactionId status with
  | none => s
  | some (none, s1) => s1
  | some (some transaction, s1) =>
    if status = TxStatus.approved then
      match updateWalletBalance s1 transaction.userId transaction.amount with
      | none => s1
      | some (_, s2) =>
        if 100 ≤ transaction.amount then
          processReferralReward s2 transaction.userId now
        else s2
    else s1

/-- The deposit route `POST /api/balance` (`routes.ts` lines 19-82):
create a pending deposit transaction, credit the wallet with the parsed
amount, then run `processReferralReward` when the amount is at least 100.
(The outbound Google-Sheets calls are external effects and not modelled.) -/
def depositFlow (s : MemStorage) (userId : Nat) (amount : ℤ)
    (utrNumber : Str) (now : Nat) : MemStorage :=
  let s1 := (createTransaction s userId amount utrNumber TxType.deposit now).2
  match updateWalletBalance s1 userId amount with
  | none => s1
  | some (_, s2) =>
    if 100 ≤ amount then processReferralReward s2 userId now else s2

/-- The registration route `POST /api/register` (`auth.ts` lines 152-192):
reject a taken username; if a (truthy) referral code is supplied it must
resolve to a referrer, and the new user's `referredBy` is set to that
referrer's `referCode`; otherwise `referredBy` is left unset. -/
def register (s : MemStorage) (username password : Str)
    (referralCode : Option Str) (rnd : Nat) : MemStorage :=
  match getUserByUsername s username with
  | some _ => s
  | none =>
    match referralCode with
    | some code =>
      if code = [] then (createUser s username password none rnd).2
      else
        match getUserByReferCode s code with
        | none => s
        | some referrer =>
          (createUser s username password (some referrer.referCode) rnd).2
    | none => (createUser s username password none rnd).2

/-- States reachable from the fresh store through the public operations:
registration (also covering the login-time `createUser` with no referral
code), deposits via `POST /api/balance`, the admin approve/reject route,
and the referral grant routine. -/
inductive Reachable : MemStorage → Prop where
  | init : Reachable MemStorage.init
  | register (s : MemStorage) (username password : Str)
      (referralCode : Option Str) (rnd : Nat) :
      Reachable s → Reachable (register s username password referralCode rnd)
  | deposit (s : MemStorage) (userId : Nat) (amount : ℤ) (utrNumber : Str)
      (now : Nat) :
      Reachable s → Reachable (depositFlow s userId amount utrNumber now)
  | adminUpdate (s : MemStorage) (transactionId : Nat) (status : TxStatus)
      (now : Nat) :
      Reachable s → Reachable (adminUpdateTransaction s transactionId status now)
  | referral (s : MemStorage) (userId : Nat) (now : Nat) :
      Reachable s → Reachable (processReferralReward s userId now)

/-- States reachable through the same public operations, but with every
deposit amount non-negative (the deposit payload schema does not enforce
this; see the C6 analysis). -/
inductive ReachableNN : MemStorage → Prop where
  | init : ReachableNN MemStorage.init
  | register (s : MemStorage) (username password : Str)
      (referralCode : Option Str) (rnd : Nat) :
      ReachableNN s → ReachableNN (register s username password referralCode rnd)
  | deposit (s : MemStorage) (userId : Nat) (amount : ℤ) (utrNumber : Str)
      (now : Nat) :
      0 ≤ amount →
      ReachableNN s → ReachableNN (depositFlow s userId amount utrNumber now)
  | adminUpdate (s : MemStorage) (transactionId : Nat) (status : TxStatus)
      (now : Nat) :
      ReachableNN s → ReachableNN (adminUpdateTransaction s transactionId status now)
  | referral (s : MemStorage) (userId : Nat) (now : Nat) :
      ReachableNN s → ReachableNN (processReferralReward s userId now)

/-- The guard conditions under which `processReferralReward` does nothing:
user absent, `referredBy` falsy, reward already claimed, or referrer not
found. -/
def ReferralNoOp (s : MemStorage) (uid : Nat) : Prop :=
  match getUser s uid with
  | none => True
  | some u =>
    match u.referredBy with
    | none => True
    | some rb =>
      rb = [] ∨ u.referralRewardClaimed = ['y', 'e', 's'] ∨
        getUserByReferCode s rb = none

/-- `v` agrees with `u` on the fields no storage operation ever rewrites
after creation: id, refer code and referrer reference. -/
def SameIdentity (u v : User) : Prop :=
  v.id = u.id ∧ v.referCode = u.referCode ∧ v.referredBy = u.referredBy

/-- A user record whose refer code starts with `'U'` and whose
`referredBy`, when set, also starts with `'U'`. -/
def GoodUser (u : User) : Prop :=
  u.referCode.head? = some 'U' ∧
    ∀ rb, u.referredBy = some rb → rb.head? = some 'U'

/-- All user records in the store are `GoodUser`s. -/
def GoodUsers (s : MemStorage) : Prop := ∀ u ∈ s.users, GoodUser u

/-- Every stored user id is below the `currentId` counter. -/
def IdsBound (s : MemStorage) : Prop := ∀ u ∈ s.users, u.id < s.currentId

/-- All wallet balances and all transaction amounts are non-negative. -/
def NonNegState (s : MemStorage) : Prop :=
  (∀ u ∈ s.users, 0 ≤ u.walletBalance) ∧ (∀ t ∈ s.transactions, 0 ≤ t.amount)

/-! ### Concrete scenario states

`sAlice`: one registered user (id 1, refer code `USER0000`).
`sAliceBob`: additionally user `b` (id 2) registered with `USER0000`.
The remaining states run the deposit and admin flows on these. -/

def sAlice : MemStorage :=
  register MemStorage.init ['a'] ['p'] none 0

def sAliceBob : MemStorage :=
  register sAlice ['b'] ['p'] (some ['U', 'S', 'E', 'R', '0', '0', '0', '0']) 1

def sDeposit150 : MemStorage := depositFlow sAliceBob 2 150 ['u'] 10

def sDeposit50 : MemStorage := depositFlow sAlice 1 50 ['u'] 5

def sApproved : MemStorage := adminUpdateTransaction sDeposit50 1 TxStatus.approved 6

def sReApproved : MemStorage := adminUpdateTransaction sApproved 1 TxStatus.approved 7

def sRejected : MemStorage := adminUpdateTransaction sApproved 1 TxStatus.rejected 8

def sNegative : MemStorage := depositFlow sAlice 1 (-50) ['u'] 3

def cu1 : User × MemStorage := createUser MemStorage.init ['a'] ['p'] none 7

def cu2 : User × MemStorage := createUser cu1.2 ['b'] ['p'] none 7

/-- User 2 ("b") as stored in `sAliceBob`. -/
def bobUser : User :=
  { id := 2, username := ['b'], password := ['p'], walletBalance := 0,
    referCode := ['U', 'S', 'E', 'R', '0', '0', '0', '1'],
    referredBy := some ['U', 'S', 'E', 'R', '0', '0', '0', '0'],
    referralRewardClaimed := ['n', 'o'] }

/-- User 1 ("a") as stored in `sAliceBob`. -/
def aliceUser : User :=
  { id := 1, username := ['a'], password := ['p'], walletBalance := 0,
    referCode := ['U', 'S', 'E', 'R', '0', '0', '0', '0'],
    referredBy := none,
    referralRewardClaimed := ['n', 'o'] }

/-- User 1 as stored in `sDeposit150` (credited the 30 referral bonus). -/
def aliceAfterDeposit : User := { aliceUser with walletBalance := 30 }

/-- Transaction 1 as stored in `sDeposit50`. -/
def tx1Pending : Txn :=
  { id := 1, userId := 1, amount := 50, utrNumber := ['u'],
    status := TxStatus.pending, createdAt := 5, type := TxType.deposit }

/-- Transaction 1 as stored in `sApproved`. -/
def tx1Approved : Txn := { tx1Pending with status := TxStatus.approved }

/-! ### Basic lemmas about the map model -/

theorem mem_usersSet {l : List User} {id : Nat} {u v : User}
    (hv : v ∈ usersSet l id u) : v ∈ l ∨ v = u := by
  unfold usersSet at hv
  split at hv
  · rcases List.mem_map.mp hv with ⟨w, hw, hweq⟩
    by_cases h : w.id = id
    · simp [h] at hweq; exact Or.inr hweq.symm
    · simp [h] at hweq; exact Or.inl (hweq ▸ hw)
  · rcases List.mem_append.mp hv with h | h
    · exact Or.inl h
    · exact Or.inr (List.mem_singleton.mp h)

theorem mem_txnsSet {l : List Txn} {id : Nat} {t v : Txn}
    (hv : v ∈ txnsSet l id t) : v ∈ l ∨ v = t := by
  unfold txnsSet at hv
  split at hv
  · rcases List.mem_map.mp hv with ⟨w, hw, hweq⟩
    by_cases h : w.id = id
    · simp [h] at hweq; exact Or.inr hweq.symm
    · simp [h] at hweq; exact Or.inl (hweq ▸ hw)
  · rcases List.mem_append.mp hv with h | h
    · exact Or.inl h
    · exact Or.inr (List.mem_singleton.mp h)

theorem getUser_eq_some {s : MemStorage} {id : Nat} {u : User}
    (h : getUser s id = some u) : u ∈ s.users ∧ u.id = id := by
  refine ⟨List.mem_of_find?_eq_some h, ?_⟩
  have := List.find?_some h
  simpa using this

theorem find?_txn_eq_some {s : MemStorage} {id : Nat} {t : Txn}
    (h : s.transactions.find? (fun v => v.id = id) = some t) :
    t ∈ s.transactions ∧ t.id = id := by
  refine ⟨List.mem_of_find?_eq_some h, ?_⟩
  have := List.find?_some h
  simpa using this

/-- If some user with key `x` is present, it is still present after any
`usersSet` whose new record carries its own key. -/
theorem anyId_usersSet {l : List User} {id x : Nat} {u : User} (hu : u.id = id)
    (h : l.any (fun v => v.id = x) = true) :
    (usersSet l id u).any (fun v => v.id = x) = true := by
  unfold usersSet
  split
  · rcases List.any_eq_true.mp h with ⟨w, hw, hwx⟩
    refine List.any_eq_true.mpr ?_
    by_cases hwid : w.id = id
    · exact ⟨u, List.mem_map.mpr ⟨w, hw, by simp [hwid]⟩, by
        simp at hwx; simp [hu, hwid ▸ hwx]⟩
    · exact ⟨w, List.mem_map.mpr ⟨w, hw, by simp [hwid]⟩, hwx⟩
  · refine List.any_eq_true.mpr ?_
    rcases List.any_eq_true.mp h with ⟨w, hw, hwx⟩
    exact ⟨w, List.mem_append_left _ hw, hwx⟩

/-- Looking up key `id` right after `usersSet l id u` (with `u.id = id`)
finds `u`, provided the key was already present. -/
theorem find?_usersSet_self {l : List User} {id : Nat} {u : User}
    (hu : u.id = id) (h : l.any (fun v => v.id = id) = true) :
    (usersSet l id u).find? (fun v => v.id = id) = some u := by
  unfold usersSet
  rw [if_pos h]
  induction l with
  | nil => simp at h
  | cons w l ih =>
    by_cases hwid : w.id = id
    · simp [hwid, List.find?_cons, hu]
    · have h' : l.any (fun v => v.id = id) = true := by
        rcases List.any_eq_true.mp h with ⟨v, hv, hvx⟩
        rcases List.mem_cons.mp hv with rfl | hv
        · simp at hvx; exact absurd hvx hwid
        · exact List.any_eq_true.mpr ⟨v, hv, hvx⟩
      simpa [hwid] using ih h'

theorem any_of_mem_id {l : List User} {u : User} (h : u ∈ l) :
    l.any (fun v => v.id = u.id) = true :=
  List.any_eq_true.mpr ⟨u, h, by simp⟩

/-! ### Shape of `processReferralReward` -/

theorem processReferralReward_noop {s : MemStorage} {uid : Nat}
    (h : ReferralNoOp s uid) (now : Nat) :
    processReferralReward s uid now = s := by
  unfold ReferralNoOp at h
  unfold processReferralReward
  cases hu : getUser s uid with
  | none => rfl
  | some user =>
    simp only [hu] at h
    cases hrb : user.referredBy with
    | none => simp only [hrb]
    | some rb =>
      simp only [hrb] at h
      simp only [hrb]
      rcases h with h | h | h
      · rw [if_pos h]
      · by_cases hnil : rb = []
        · rw [if_pos hnil]
        · rw [if_neg hnil, if_pos h]
      · by_cases hnil : rb = []
        · rw [if_pos hnil]
        · by_cases hcl : user.referralRewardClaimed = ['y', 'e', 's']
          · rw [if_neg hnil, if_pos hcl]
          · rw [if_neg hnil, if_neg hcl, h]

/-- In the effective case (all guards pass), `processReferralReward`
produces exactly: the referrer's record credited 30, the referee's record
credited 30 and then overwritten by the stale snapshot `user` with only
`referralRewardClaimed` flipped, and two new `referral_bonus` transactions
— both with status `pending`. -/
theorem processReferralReward_effective_eq
    {s : MemStorage} {uid : Nat} {user referrer : User} {refBy : Str}
    (now : Nat) (hu : getUser s uid = some user)
    (hrb : user.referredBy = some refBy) (hne : refBy ≠ [])
    (hcl : user.referralRewardClaimed ≠ ['y', 'e', 's'])
    (href : getUserByReferCode s refBy = some referrer) :
    ∃ w1 w2 : User,
      s.users.find? (fun v => v.id = referrer.id) = some w1 ∧
      (usersSet s.users referrer.id
          { w1 with walletBalance := w1.walletBalance + 30 }).find?
          (fun v => v.id = user.id) = some w2 ∧
      processReferralReward s uid now =
        { users := usersSet (usersSet (usersSet s.users referrer.id
              { w1 with walletBalance := w1.walletBalance + 30 })
              user.id { w2 with walletBalance := w2.walletBalance + 30 })
              user.id { user with referralRewardClaimed := ['y', 'e', 's'] }
          transactions := txnsSet (txnsSet s.transactions s.currentTransactionId
              { id := s.currentTransactionId, userId := referrer.id, amount := 30,
                utrNumber := ['R', 'E', 'F', '_'] ++ user.username,
                status := TxStatus.pending, createdAt := now,
                type := TxType.referral_bonus })
              (s.currentTransactionId + 1)
              { id := s.currentTransactionId + 1, userId := user.id, amount := 30,
                utrNumber := ['R', 'E', 'F', '_', 'B', 'O', 'N', 'U', 'S'],
                status := TxStatus.pending, createdAt := now,
                type := TxType.referral_bonus }
          currentId := s.currentId
          currentTransactionId := s.currentTransactionId + 2 } := by
  have hrefmem := List.mem_of_find?_eq_some href
  have hany1 : s.users.any (fun v => v.id = referrer.id) = true :=
    any_of_mem_id hrefmem
  obtain ⟨w1, hw1⟩ : ∃ w1, s.users.find? (fun v => v.id = referrer.id) = some w1 := by
    have := List.find?_isSome.mpr (by
      rcases List.any_eq_true.mp hany1 with ⟨v, hv, hvx⟩; exact ⟨v, hv, hvx⟩)
    exact Option.isSome_iff_exists.mp this
  have hw1id : w1.id = referrer.id := by simpa using List.find?_some hw1
  have humem := (getUser_eq_some hu).1
  have hany2 : (usersSet s.users referrer.id
      { w1 with walletBalance := w1.walletBalance + 30 }).any
      (fun v => v.id = user.id) = true :=
    anyId_usersSet (by simpa using hw1id) (any_of_mem_id humem)
  obtain ⟨w2, hw2⟩ : ∃ w2, (usersSet s.users referrer.id
      { w1 with walletBalance := w1.walletBalance + 30 }).find?
      (fun v => v.id = user.id) = some w2 := by
    have := List.find?_isSome.mpr (by
      rcases List.any_eq_true.mp hany2 with ⟨v, hv, hvx⟩; exact ⟨v, hv, hvx⟩)
    exact Option.isSome_iff_exists.mp this
  refine ⟨w1, w2, hw1, hw2, ?_⟩
  have hgu1 : getUser s referrer.id = some w1 := hw1
  unfold processReferralReward
  simp only [hu, hrb, if_neg hne, if_neg hcl, href]
  simp only [updateWalletBalance, hgu1, createTransaction]
  simp only [getUser]
  simp only [hw2]

/-- `processReferralReward` either hits one of its guards or all of the
guards pass. -/
theorem processReferralReward_cases (s : MemStorage) (uid : Nat) :
    ReferralNoOp s uid ∨
    ∃ user refBy referrer, getUser s uid = some user ∧
      user.referredBy = some refBy ∧ refBy ≠ [] ∧
      user.referralRewardClaimed ≠ ['y', 'e', 's'] ∧
      getUserByReferCode s refBy = some referrer := by
  cases hu : getUser s uid with
  | none => exact Or.inl (by simp only [ReferralNoOp, hu])
  | some user =>
    cases hrb : user.referredBy with
    | none => exact Or.inl (by simp only [ReferralNoOp, hu, hrb])
    | some rb =>
      by_cases hne : rb = []
      · exact Or.inl (by
          simp only [ReferralNoOp, hu, hrb]; exact Or.inl hne)
      by_cases hcl : user.referralRewardClaimed = ['y', 'e', 's']
      · exact Or.inl (by
          simp only [ReferralNoOp, hu, hrb]; exact Or.inr (Or.inl hcl))
      cases href : getUserByReferCode s rb with
      | none => exact Or.inl (by
          simp only [ReferralNoOp, hu, hrb]; exact Or.inr (Or.inr href))
      | some referrer =>
        exact Or.inr ⟨user, rb, referrer, rfl, hrb, hne, hcl, href⟩

/-! ### Specification of the single-step mutators -/

theorem generateReferCode_head (rnd : Nat) :
    (generateReferCode rnd).head? = some 'U' := rfl

theorem updateWalletBalance_eq_some {s : MemStorage} {uid : Nat} {amt : ℤ}
    {p : User × MemStorage} (h : updateWalletBalance s uid amt = some p) :
    ∃ w, getUser s uid = some w ∧
      p = ({ w with walletBalance := w.walletBalance + amt },
        { s with users := (usersSet s.users uid
            { w with walletBalance := w.walletBalance + amt }) }) := by
  unfold updateWalletBalance at h
  split at h
  · cases h
  · next w hg => exact ⟨w, hg, (Option.some.inj h).symm⟩

/-- Inversion principle for `updateTransactionStatus`: on success the
transaction exists, its status is overwritten with the requested one, and
the wallet credit happens exactly on a transition into `approved` from a
non-approved status (with the status write surviving even when the credit
throws). -/
theorem updateTransactionStatus_inv {s : MemStorage} {txId : Nat}
    {st : TxStatus} {r : Option Txn} {s' : MemStorage}
    (h : updateTransactionStatus s txId st = some (r, s')) :
    ∃ tx, s.transactions.find? (fun v => v.id = txId) = some tx ∧
      ((¬(st = TxStatus.approved ∧ tx.status ≠ TxStatus.approved) ∧
          r = some { tx with status := st } ∧
          s' = { s with transactions :=
            (txnsSet s.transactions txId { tx with status := st }) }) ∨
        ((st = TxStatus.approved ∧ tx.status ≠ TxStatus.approved) ∧
          ((∃ p, updateWalletBalance
                { s with transactions :=
                  (txnsSet s.transactions txId { tx with status := st }) }
                tx.userId tx.amount = some p ∧
              r = some { tx with status := st } ∧ s' = p.2) ∨
            (updateWalletBalance
                { s with transactions :=
                  (txnsSet s.transactions txId { tx with status := st }) }
                tx.userId tx.amount = none ∧ r = none ∧
              s' = { s with transactions :=
                (txnsSet s.transactions txId { tx with status := st }) })))) := by
  unfold updateTransactionStatus at h
  split at h
  · cases h
  · next tx hfind =>
    refine ⟨tx, hfind, ?_⟩
    simp only [] at h
    split at h
    · next hcond =>
      split at h
      · next hnone =>
        obtain ⟨h1, h2⟩ := Prod.mk.inj (Option.some.inj h)
        exact Or.inr ⟨hcond, Or.inr ⟨hnone, h1.symm, h2.symm⟩⟩
      · next q s2 hsome =>
        obtain ⟨h1, h2⟩ := Prod.mk.inj (Option.some.inj h)
        exact Or.inr ⟨hcond, Or.inl ⟨(q, s2), hsome, h1.symm, h2.symm⟩⟩
    · next hcond =>
      obtain ⟨h1, h2⟩ := Prod.mk.inj (Option.some.inj h)
      exact Or.inl ⟨hcond, h1.symm, h2.symm⟩

/-! ### Invariant preservation, operation by operation -/

theorem nonneg_creditStep {s : MemStorage} {uid : Nat} {amt : ℤ}
    {p : User × MemStorage} (h : updateWalletBalance s uid amt = some p)
    (hamt : 0 ≤ amt) (hs : NonNegState s) : NonNegState p.2 := by
  obtain ⟨w, hg, rfl⟩ := updateWalletBalance_eq_some h
  refine ⟨?_, hs.2⟩
  intro v hv
  rcases mem_usersSet hv with hv | rfl
  · exact hs.1 v hv
  · show 0 ≤ w.walletBalance + amt
    exact add_nonneg (hs.1 w (getUser_eq_some hg).1) hamt

theorem goodUsers_creditStep {s : MemStorage} {uid : Nat} {amt : ℤ}
    {p : User × MemStorage} (h : updateWalletBalance s uid amt = some p)
    (hs : GoodUsers s) : GoodUsers p.2 := by
  obtain ⟨w, hg, rfl⟩ := updateWalletBalance_eq_some h
  intro v hv
  rcases mem_usersSet hv with hv | rfl
  · exact hs v hv
  · exact hs w (getUser_eq_some hg).1

theorem idsBound_creditStep {s : MemStorage} {uid : Nat} {amt : ℤ}
    {p : User × MemStorage} (h : updateWalletBalance s uid amt = some p)
    (hs : IdsBound s) : IdsBound p.2 := by
  obtain ⟨w, hg, rfl⟩ := updateWalletBalance_eq_some h
  intro v hv
  rcases mem_usersSet hv with hv | rfl
  · exact hs v hv
  · exact hs w (getUser_eq_some hg).1

theorem nonneg_statusWrite {s : MemStorage} {txId : Nat} {tx : Txn}
    (st : TxStatus)
    (hfind : s.transactions.find? (fun v => v.id = txId) = some tx)
    (hs : NonNegState s) :
    NonNegState { s with transactions :=
      (txnsSet s.transactions txId { tx with status := st }) } := by
  refine ⟨hs.1, ?_⟩
  intro t ht
  rcases mem_txnsSet ht with ht | rfl
  · exact hs.2 t ht
  · show 0 ≤ tx.amount
    exact hs.2 tx (List.mem_of_find?_eq_some hfind)

theorem nonneg_processReferralReward {s : MemStorage} (uid now : Nat)
    (hs : NonNegState s) : NonNegState (processReferralReward s uid now) := by
  rcases processReferralReward_cases s uid with hno |
    ⟨user, refBy, referrer, hu, hrb, hne, hcl, href⟩
  · rw [processReferralReward_noop hno now]; exact hs
  · obtain ⟨w1, w2, hw1, hw2, hst⟩ :=
      processReferralReward_effective_eq now hu hrb hne hcl href
    have hw1mem : w1 ∈ s.users := List.mem_of_find?_eq_some hw1
    have humem : user ∈ s.users := (getUser_eq_some hu).1
    rw [hst]
    constructor
    · intro v hv
      rcases mem_usersSet hv with hv | rfl
      · rcases mem_usersSet hv with hv | rfl
        · rcases mem_usersSet hv with hv | rfl
          · exact hs.1 v hv
          · show 0 ≤ w1.walletBalance + 30
            exact add_nonneg (hs.1 w1 hw1mem) (by norm_num)
        · rcases mem_usersSet (List.mem_of_find?_eq_some hw2) with hv | rfl
          · show 0 ≤ w2.walletBalance + 30
            exact add_nonneg (hs.1 w2 hv) (by norm_num)
          · show 0 ≤ w1.walletBalance + 30 + 30
            exact add_nonneg (add_nonneg (hs.1 w1 hw1mem) (by norm_num)) (by norm_num)
      · exact hs.1 user humem
    · intro t ht
      rcases mem_txnsSet ht with ht | rfl
      · rcases mem_txnsSet ht with ht | rfl
        · exact hs.2 t ht
        · show (0 : ℤ) ≤ 30
          norm_num
      · show (0 : ℤ) ≤ 30
        norm_num

theorem goodUsers_processReferralReward {s : MemStorage} (uid now : Nat)
    (hs : GoodUsers s) : GoodUsers (processReferralReward s uid now) := by
  rcases processReferralReward_cases s uid with hno |
    ⟨user, refBy, referrer, hu, hrb, hne, hcl, href⟩
  · rw [processReferralReward_noop hno now]; exact hs
  · obtain ⟨w1, w2, hw1, hw2, hst⟩ :=
      processReferralReward_effective_eq now hu hrb hne hcl href
    have hw1mem : w1 ∈ s.users := List.mem_of_find?_eq_some hw1
    have humem : user ∈ s.users := (getUser_eq_some hu).1
    rw [hst]
    intro v hv
    rcases mem_usersSet hv with hv | rfl
    · rcases mem_usersSet hv with hv | rfl
      · rcases mem_usersSet hv with hv | rfl
        · exact hs v hv
        · exact hs w1 hw1mem
      · rcases mem_usersSet (List.mem_of_find?_eq_some hw2) with hv | rfl
        · exact hs w2 hv
        · exact hs w1 hw1mem
    · exact hs user humem

theorem idsBound_processReferralReward {s : MemStorage} (uid now : Nat)
    (hs : IdsBound s) : IdsBound (processReferralReward s uid now) := by
  rcases processReferralReward_cases s uid with hno |
    ⟨user, refBy, referrer, hu, hrb, hne, hcl, href⟩
  · rw [processReferralReward_noop hno now]; exact hs
  · obtain ⟨w1, w2, hw1, hw2, hst⟩ :=
      processReferralReward_effective_eq now hu hrb hne hcl href
    have hw1mem : w1 ∈ s.users := List.mem_of_find?_eq_some hw1
    have humem : user ∈ s.users := (getUser_eq_some hu).1
    rw [hst]
    intro v hv
    rcases mem_usersSet hv with hv | rfl
    · rcases mem_usersSet hv with hv | rfl
      · rcases mem_usersSet hv with hv | rfl
        · exact hs v hv
        · exact hs w1 hw1mem
      · rcases mem_usersSet (List.mem_of_find?_eq_some hw2) with hv | rfl
        · exact hs w2 hv
        · exact hs w1 hw1mem
    · exact hs user humem

theorem nonneg_createTransaction {s : MemStorage} (uid : Nat) {amt : ℤ}
    (utr : Str) (ty : TxType) (now : Nat) (hamt : 0 ≤ amt)
    (hs : NonNegState s) :
    NonNegState (createTransaction s uid amt utr ty now).2 := by
  refine ⟨hs.1, ?_⟩
  intro t ht
  rcases mem_txnsSet ht with ht | rfl
  · exact hs.2 t ht
  · exact hamt

theorem nonneg_createUser {s : MemStorage} (un pw : Str) (rb : Option Str)
    (rnd : Nat) (hs : NonNegState s) :
    NonNegState (createUser s un pw rb rnd).2 := by
  refine ⟨?_, hs.2⟩
  intro v hv
  rcases mem_usersSet hv with hv | rfl
  · exact hs.1 v hv
  · show (0 : ℤ) ≤ 0
    norm_num

theorem goodUsers_createUser {s : MemStorage} (un pw : Str) {rb : Option Str}
    (rnd : Nat)
    (hrb : rb = none ∨ ∃ c, rb = some c ∧ c.head? = some 'U')
    (hs : GoodUsers s) : GoodUsers (createUser s un pw rb rnd).2 := by
  intro v hv
  rcases mem_usersSet hv with hv | rfl
  · exact hs v hv
  · constructor
    · exact generateReferCode_head rnd
    · intro c hc
      rcases hrb with rfl | ⟨c0, rfl, hc0⟩
      · simp at hc
      · simp only at hc
        split at hc
        · cases hc
        · exact (Option.some.inj hc) ▸ hc0

theorem idsBound_createUser {s : MemStorage} (un pw : Str) (rb : Option Str)
    (rnd : Nat) (hs : IdsBound s) : IdsBound (createUser s un pw rb rnd).2 := by
  intro v hv
  rcases mem_usersSet hv with hv | rfl
  · exact Nat.lt_succ_of_lt (hs v hv)
  · exact Nat.lt_succ_self _

theorem nonneg_register (s : MemStorage) (un pw : Str) (rc : Option Str)
    (rnd : Nat) (hs : NonNegState s) :
    NonNegState (register s un pw rc rnd) := by
  unfold register
  split
  · exact hs
  · split
    · split
      · exact nonneg_createUser un pw none rnd hs
      · split
        · exact hs
        · exact nonneg_createUser un pw _ rnd hs
    · exact nonneg_createUser un pw none rnd hs

theorem goodUsers_register (s : MemStorage) (un pw : Str) (rc : Option Str)
    (rnd : Nat) (hs : GoodUsers s) :
    GoodUsers (register s un pw rc rnd) := by
  unfold register
  split
  · exact hs
  · split
    · split
      · exact goodUsers_createUser un pw rnd (Or.inl rfl) hs
      · split
        · exact hs
        · next referrer href =>
          exact goodUsers_createUser un pw rnd
            (Or.inr ⟨referrer.referCode, rfl,
              (hs referrer (List.mem_of_find?_eq_some href)).1⟩) hs
    · exact goodUsers_createUser un pw rnd (Or.inl rfl) hs

theorem idsBound_register (s : MemStorage) (un pw : Str) (rc : Option Str)
    (rnd : Nat) (hs : IdsBound s) :
    IdsBound (register s un pw rc rnd) := by
  unfold register
  split
  · exact hs
  · split
    · split
      · exact idsBound_createUser un pw none rnd hs
      · split
        · exact hs
        · exact idsBound_createUser un pw _ rnd hs
    · exact idsBound_createUser un pw none rnd hs

theorem nonneg_adminUpdateTransaction (s : MemStorage) (txId : Nat)
    (st : TxStatus) (now : Nat) (hs : NonNegState s) :
    NonNegState (adminUpdateTransaction s txId st now) := by
  unfold adminUpdateTransaction
  split
  · exact hs
  · next s1 heq =>
    obtain ⟨tx, hfind, hcase⟩ := updateTransactionStatus_inv heq
    rcases hcase with ⟨_, hr, _⟩ | ⟨_, ⟨p, _, hr, _⟩ | ⟨_, _, hs1⟩⟩
    · cases hr
    · cases hr
    · exact hs1 ▸ nonneg_statusWrite st hfind hs
  · next tx1 s1 heq =>
    obtain ⟨tx, hfind, hcase⟩ := updateTransactionStatus_inv heq
    have hamt : 0 ≤ tx.amount := hs.2 tx (List.mem_of_find?_eq_some hfind)
    have hs1 : NonNegState s1 ∧ tx1.amount = tx.amount := by
      rcases hcase with ⟨_, hr, hst1⟩ | ⟨_, ⟨p, hcredit, hr, hst1⟩ | ⟨_, hr, _⟩⟩
      · refine ⟨hst1 ▸ nonneg_statusWrite st hfind hs, ?_⟩
        rw [Option.some.inj hr]
      · refine ⟨hst1 ▸ nonneg_creditStep hcredit hamt
          (nonneg_statusWrite st hfind hs), ?_⟩
        rw [Option.some.inj hr]
      · cases hr
    split
    · split
      · exact hs1.1
      · next q s2 hcredit =>
        have hp : NonNegState (q, s2).2 :=
          nonneg_creditStep hcredit (hs1.2 ▸ hamt) hs1.1
        split
        · exact nonneg_processReferralReward _ _ hp
        · exact hp
    · exact hs1.1

theorem goodUsers_adminUpdateTransaction (s : MemStorage) (txId : Nat)
    (st : TxStatus) (now : Nat) (hs : GoodUsers s) :
    GoodUsers (adminUpdateTransaction s txId st now) := by
  unfold adminUpdateTransaction
  split
  · exact hs
  · next s1 heq =>
    obtain ⟨tx, hfind, hcase⟩ := updateTransactionStatus_inv heq
    rcases hcase with ⟨_, hr, _⟩ | ⟨_, ⟨p, _, hr, _⟩ | ⟨_, _, hs1⟩⟩
    · cases hr
    · cases hr
    · exact hs1 ▸ fun v hv => hs v hv
  · next tx1 s1 heq =>
    obtain ⟨tx, hfind, hcase⟩ := updateTransactionStatus_inv heq
    have hs1 : GoodUsers s1 := by
      rcases hcase with ⟨_, hr, hst1⟩ | ⟨_, ⟨p, hcredit, hr, hst1⟩ | ⟨_, hr, _⟩⟩
      · exact hst1 ▸ fun v hv => hs v hv
      · exact hst1 ▸ goodUsers_creditStep hcredit (fun v hv => hs v hv)
      · cases hr
    split
    · split
      · exact hs1
      · next q s2 hcredit =>
        have hp : GoodUsers (q, s2).2 := goodUsers_creditStep hcredit hs1
        split
        · exact goodUsers_processReferralReward _ _ hp
        · exact hp
    · exact hs1

theorem idsBound_adminUpdateTransaction (s : MemStorage) (txId : Nat)
    (st : TxStatus) (now : Nat) (hs : IdsBound s) :
    IdsBound (adminUpdateTransaction s txId st now) := by
  unfold adminUpdateTransaction
  split
  · exact hs
  · next s1 heq =>
    obtain ⟨tx, hfind, hcase⟩ := updateTransactionStatus_inv heq
    rcases hcase with ⟨_, hr, _⟩ | ⟨_, ⟨p, _, hr, _⟩ | ⟨_, _, hs1⟩⟩
    · cases hr
    · cases hr
    · exact hs1 ▸ fun v hv => hs v hv
  · next tx1 s1 heq =>
    obtain ⟨tx, hfind, hcase⟩ := updateTransactionStatus_inv heq
    have hs1 : IdsBound s1 := by
      rcases hcase with ⟨_, hr, hst1⟩ | ⟨_, ⟨p, hcredit, hr, hst1⟩ | ⟨_, hr, _⟩⟩
      · exact hst1 ▸ fun v hv => hs v hv
      · exact hst1 ▸ idsBound_creditStep hcredit (fun v hv => hs v hv)
      · cases hr
    split
    · split
      · exact hs1
      · next q s2 hcredit =>
        have hp : IdsBound (q, s2).2 := idsBound_creditStep hcredit hs1
        split
        · exact idsBound_processReferralReward _ _ hp
        · exact hp
    · exact hs1

theorem nonneg_depositFlow (s : MemStorage) (uid : Nat) {amt : ℤ} (utr : Str)
    (now : Nat) (hamt : 0 ≤ amt) (hs : NonNegState s) :
    NonNegState (depositFlow s uid amt utr now) := by
  unfold depositFlow
  have h1 : NonNegState (createTransaction s uid amt utr TxType.deposit now).2 :=
    nonneg_createTransaction uid utr TxType.deposit now hamt hs
  simp only []
  split
  · exact h1
  · next q s2 hcredit =>
    have hp : NonNegState (q, s2).2 := nonneg_creditStep hcredit hamt h1
    split
    · exact nonneg_processReferralReward _ _ hp
    · exact hp

theorem goodUsers_depositFlow (s : MemStorage) (uid : Nat) (amt : ℤ)
    (utr : Str) (now : Nat) (hs : GoodUsers s) :
    GoodUsers (depositFlow s uid amt utr now) := by
  unfold depositFlow
  have h1 : GoodUsers (createTransaction s uid amt utr TxType.deposit now).2 :=
    fun v hv => hs v hv
  simp only []
  split
  · exact h1
  · next q s2 hcredit =>
    have hp : GoodUsers (q, s2).2 := goodUsers_creditStep hcredit h1
    split
    · exact goodUsers_processReferralReward _ _ hp
    · exact hp

theorem idsBound_depositFlow (s : MemStorage) (uid : Nat) (amt : ℤ)
    (utr : Str) (now : Nat) (hs : IdsBound s) :
    IdsBound (depositFlow s uid amt utr now) := by
  unfold depositFlow
  have h1 : IdsBound (createTransaction s uid amt utr TxType.deposit now).2 :=
    fun v hv => hs v hv
  simp only []
  split
  · exact h1
  · next q s2 hcredit =>
    have hp : IdsBound (q, s2).2 := idsBound_creditStep hcredit h1
    split
    · exact idsBound_processReferralReward _ _ hp
    · exact hp

theorem any_of_mem_txnId {l : List Txn} {t : Txn} (h : t ∈ l) :
    l.any (fun v => v.id = t.id) = true :=
  List.any_eq_true.mpr ⟨t, h, by simp⟩

theorem find?_txnsSet_self {l : List Txn} {id : Nat} {t : Txn}
    (ht : t.id = id) (h : l.any (fun v => v.id = id) = true) :
    (txnsSet l id t).find? (fun v => v.id = id) = some t := by
  unfold txnsSet
  rw [if_pos h]
  induction l with
  | nil => simp at h
  | cons w l ih =>
    by_cases hwid : w.id = id
    · simp [hwid, List.find?_cons, ht]
    · have h' : l.any (fun v => v.id = id) = true := by
        rcases List.any_eq_true.mp h with ⟨v, hv, hvx⟩
        rcases List.mem_cons.mp hv with rfl | hv
        · simp at hvx; exact absurd hvx hwid
        · exact List.any_eq_true.mpr ⟨v, hv, hvx⟩
      simpa [hwid] using ih h'

theorem foldl_filter_amount (p : Txn → Bool) (l : List Txn) (init : ℤ) :
    (l.filter p).foldl (fun acc t => acc + t.amount) init
      = init + (l.map (fun t => if p t = true then t.amount else 0)).sum := by
  induction l generalizing init with
  | nil => simp
  | cons t l ih =>
    simp only [List.filter_cons, List.map_cons, List.sum_cons]
    by_cases hp : p t = true
    · rw [if_pos hp, if_pos hp, List.foldl_cons, ih]
      ring
    · rw [if_neg hp, if_neg hp, ih]
      ring

theorem foldl_filter2_amount (p q : Txn → Bool) (l : List Txn) (init : ℤ) :
    ((l.filter p).filter q).foldl (fun acc t => acc + t.amount) init
      = init + (l.map
          (fun t => if p t = true ∧ q t = true then t.amount else 0)).sum := by
  induction l generalizing init with
  | nil => simp
  | cons t l ih =>
    simp only [List.filter_cons, List.map_cons, List.sum_cons]
    by_cases hp : p t = true
    · by_cases hq : q t = true
      · rw [if_pos hp, List.filter_cons, if_pos hq, if_pos ⟨hp, hq⟩,
          List.foldl_cons, ih]
        ring
      · rw [if_pos hp, List.filter_cons, if_neg hq,
          if_neg (fun hand => hq hand.2), ih]
        ring
    · rw [if_neg hp, if_neg (fun hand => hp hand.1), ih]
      ring

/-! ### The reachability invariants -/

theorem reachableNN_nonNegState {s : MemStorage} (hs : ReachableNN s) :
    NonNegState s := by
  induction hs with
  | init => exact ⟨fun u hu => (nomatch hu), fun t ht => (nomatch ht)⟩
  | register s un pw rc rnd _ ih => exact nonneg_register s un pw rc rnd ih
  | deposit s uid amt utr now hamt _ ih => exact nonneg_depositFlow s uid utr now hamt ih
  | adminUpdate s txId st now _ ih => exact nonneg_adminUpdateTransaction s txId st now ih
  | referral s uid now _ ih => exact nonneg_processReferralReward uid now ih

theorem reachable_goodUsers {s : MemStorage} (hs : Reachable s) :
    GoodUsers s := by
  induction hs with
  | init => intro u hu; cases hu
  | register s un pw rc rnd _ ih => exact goodUsers_register s un pw rc rnd ih
  | deposit s uid amt utr now _ ih => exact goodUsers_depositFlow s uid amt utr now ih
  | adminUpdate s txId st now _ ih => exact goodUsers_adminUpdateTransaction s txId st now ih
  | referral s uid now _ ih => exact goodUsers_processReferralReward uid now ih

theorem reachable_idsBound {s : MemStorage} (hs : Reachable s) :
    IdsBound s := by
  induction hs with
  | init => intro u hu; cases hu
  | register s un pw rc rnd _ ih => exact idsBound_register s un pw rc rnd ih
  | deposit s uid amt utr now _ ih => exact idsBound_depositFlow s uid amt utr now ih
  | adminUpdate s txId st now _ ih => exact idsBound_adminUpdateTransaction s txId st now ih
  | referral s uid now _ ih => exact idsBound_processReferralReward uid now ih

/-! ### Decimal strings never collide with refer codes -/

theorem decChar_ne_U (m : Nat) : decChar m ≠ 'U' := by
  unfold decChar; split <;> decide

theorem mem_natDigitsAux {c : Char} :
    ∀ fuel n, c ∈ natDigitsAux fuel n → ∃ m, c = decChar m := by
  intro fuel
  induction fuel with
  | zero => intro n h; simp [natDigitsAux] at h
  | succ fuel ih =>
    intro n h
    unfold natDigitsAux at h
    split at h
    · simp at h
    · rcases List.mem_append.mp h with h | h
      · exact ih _ h
      · exact ⟨n % 10, List.mem_singleton.mp h⟩

theorem mem_natToString {c : Char} {n : Nat} (h : c ∈ natToString n) :
    ∃ m, c = decChar m := by
  unfold natToString at h
  split at h
  · exact ⟨0, List.mem_singleton.mp h⟩
  · exact mem_natDigitsAux _ _ h

/-- A decimal string never equals a generated refer code: the latter
starts with `'U'`, which is not a decimal digit. -/
theorem natToString_ne_generateReferCode (n rnd : Nat) :
    natToString n ≠ generateReferCode rnd := by
  intro h
  have hU : 'U' ∈ natToString n := by
    rw [h]; unfold generateReferCode; simp
  rcases mem_natToString hU with ⟨m, hm⟩
  exact decChar_ne_U m hm.symm

/-! ## The claims -/

/-- C1: evaluation of the admin approval flow at a failing input. The spec
requires that approving a pending transaction increases the owner's
balance by exactly the transaction amount and that re-approving an
approved transaction changes no balance. In the code,
`updateTransactionStatus` credits the newly approved amount and the admin
route then credits it a second time: approving the pending 50-unit
transaction moves the owner's balance from 50 to 150 (two credits), and
re-approving moves it to 200 (one more credit). -/
theorem admin_approval_double_credits :
    (getUser sDeposit50 1).map User.walletBalance = some 50
    ∧ (sDeposit50.transactions.find? (fun t => t.id = 1)).map Txn.status
        = some TxStatus.pending
    ∧ (getUser sApproved 1).map User.walletBalance = some 150
    ∧ (sApproved.transactions.find? (fun t => t.id = 1)).map Txn.status
        = some TxStatus.approved
    ∧ (getUser sReApproved 1).map User.walletBalance = some 200 := by
  decide

/-- C2 (counterexample): in a state where `processReferralReward` fires,
the two `referral_bonus` transactions it records both carry status
`pending` — they are routed into the pending review state, not created
with an approved-equivalent status. -/
theorem referral_bonus_routed_to_pending :
    ((processReferralReward sAliceBob 2 9).transactions.filter
        (fun t => t.type = TxType.referral_bonus)).map Txn.status
      = [TxStatus.pending, TxStatus.pending]
    ∧ ((processReferralReward sAliceBob 2 9).transactions.filter
        (fun t => t.type = TxType.referral_bonus)).length = 2 := by
  decide

/-- C2 (amended): whenever `processReferralReward` fires (user exists,
`referredBy` is set and truthy, reward unclaimed, referrer found), it
records exactly two `referral_bonus` transactions — one for the referrer
and one for the referee, both of amount 30 and both with status
`pending`, like every transaction produced by `createTransaction`. -/
theorem processReferralReward_records_pending {s : MemStorage} {uid : Nat}
    {user referrer : User} {refBy : Str} (now : Nat)
    (hu : getUser s uid = some user) (hrb : user.referredBy = some refBy)
    (hne : refBy ≠ []) (hcl : user.referralRewardClaimed ≠ ['y', 'e', 's'])
    (href : getUserByReferCode s refBy = some referrer) :
    (processReferralReward s uid now).transactions =
      txnsSet (txnsSet s.transactions s.currentTransactionId
          { id := s.currentTransactionId, userId := referrer.id, amount := 30,
            utrNumber := ['R', 'E', 'F', '_'] ++ user.username,
            status := TxStatus.pending, createdAt := now,
            type := TxType.referral_bonus })
        (s.currentTransactionId + 1)
        { id := s.currentTransactionId + 1, userId := user.id, amount := 30,
          utrNumber := ['R', 'E', 'F', '_', 'B', 'O', 'N', 'U', 'S'],
          status := TxStatus.pending, createdAt := now,
          type := TxType.referral_bonus }
    ∧ (processReferralReward s uid now).currentTransactionId
        = s.currentTransactionId + 2 := by
  obtain ⟨w1, w2, hw1, hw2, hst⟩ :=
    processReferralReward_effective_eq now hu hrb hne hcl href
  rw [hst]
  exact ⟨rfl, rfl⟩

theorem processReferralReward_records_pending_witness :
    (processReferralReward sAliceBob 2 9).currentTransactionId
      = sAliceBob.currentTransactionId + 2 :=
  (@processReferralReward_records_pending sAliceBob 2 bobUser aliceUser
    ['U', 'S', 'E', 'R', '0', '0', '0', '0'] 9
    (by decide) (by decide) (by decide) (by decide) (by decide)).2

/-- C3: evaluation of the referral scenario at its failing input. A has
no referrer, B registered with A's code; before the deposit both
balances are 0. After B's qualifying 150-unit deposit, A's balance is 30
(as claimed) but B's balance is 150, not the claimed 180: the referee's
30-unit credit is overwritten when `processReferralReward` stores the
stale `user` snapshot while marking the reward claimed. Exactly one
`referral_bonus` transaction is recorded for each user. -/
theorem referral_deposit_scenario_eval :
    (getUser sAliceBob 1).map User.walletBalance = some 0
    ∧ (getUser sAliceBob 2).map User.walletBalance = some 0
    ∧ (getUser sDeposit150 1).map User.walletBalance = some 30
    ∧ (getUser sDeposit150 2).map User.walletBalance = some 150
    ∧ (sDeposit150.transactions.filter
        (fun t => t.userId = 1 ∧ t.type = TxType.referral_bonus)).length = 1
    ∧ (sDeposit150.transactions.filter
        (fun t => t.userId = 2 ∧ t.type = TxType.referral_bonus)).length = 1
    ∧ (getUser sDeposit150 2).map User.referralRewardClaimed
        = some ['y', 'e', 's'] := by
  decide

/-- C4: `processReferralReward` is idempotent — a second call for the
same user is a no-op; when any guard fails (user absent, `referredBy`
unset or empty, reward already claimed, referrer not found) the call
returns the state unchanged (no balance change, no transaction); and the
claimed flag never moves back: every user record after the call either
has `referralRewardClaimed = "yes"` or inherits the flag unchanged from
a pre-state record with the same id. -/
theorem processReferralReward_idempotent (s : MemStorage) (uid now now' : Nat) :
    processReferralReward (processReferralReward s uid now) uid now'
        = processReferralReward s uid now
    ∧ (ReferralNoOp s uid → processReferralReward s uid now = s)
    ∧ ∀ v ∈ (processReferralReward s uid now).users,
        v.referralRewardClaimed = ['y', 'e', 's'] ∨
        ∃ u ∈ s.users, u.id = v.id ∧
          u.referralRewardClaimed = v.referralRewardClaimed := by
  refine ⟨?_, fun h => processReferralReward_noop h now, ?_⟩
  · rcases processReferralReward_cases s uid with hno |
      ⟨user, refBy, referrer, hu, hrb, hne, hcl, href⟩
    · rw [processReferralReward_noop hno now, processReferralReward_noop hno now']
    · obtain ⟨w1, w2, hw1, hw2, hst⟩ :=
        processReferralReward_effective_eq now hu hrb hne hcl href
      have huid : user.id = uid := (getUser_eq_some hu).2
      subst huid
      have hw1id : w1.id = referrer.id := by simpa using List.find?_some hw1
      have hw2id : w2.id = user.id := by simpa using List.find?_some hw2
      have humem : user ∈ s.users := (getUser_eq_some hu).1
      have hany2 : (usersSet s.users referrer.id
          { w1 with walletBalance := w1.walletBalance + 30 }).any
          (fun v => v.id = user.id) = true :=
        anyId_usersSet (by simpa using hw1id) (any_of_mem_id humem)
      have hany3 : (usersSet (usersSet s.users referrer.id
          { w1 with walletBalance := w1.walletBalance + 30 }) user.id
          { w2 with walletBalance := w2.walletBalance + 30 }).any
          (fun v => v.id = user.id) = true :=
        anyId_usersSet (by simpa using hw2id) hany2
      have hfind : getUser (processReferralReward s user.id now) user.id
          = some { user with referralRewardClaimed := ['y', 'e', 's'] } := by
        rw [hst]
        exact find?_usersSet_self rfl hany3
      apply processReferralReward_noop _ now'
      unfold ReferralNoOp
      rw [hfind]
      simp only [hrb]
      exact Or.inr (Or.inl trivial)
  · rcases processReferralReward_cases s uid with hno |
      ⟨user, refBy, referrer, hu, hrb, hne, hcl, href⟩
    · rw [processReferralReward_noop hno now]
      intro v hv
      exact Or.inr ⟨v, hv, rfl, rfl⟩
    · obtain ⟨w1, w2, hw1, hw2, hst⟩ :=
        processReferralReward_effective_eq now hu hrb hne hcl href
      rw [hst]
      intro v hv
      rcases mem_usersSet hv with hv | rfl
      · rcases mem_usersSet hv with hv | rfl
        · rcases mem_usersSet hv with hv | rfl
          · exact Or.inr ⟨v, hv, rfl, rfl⟩
          · exact Or.inr ⟨w1, List.mem_of_find?_eq_some hw1, rfl, rfl⟩
        · rcases mem_usersSet (List.mem_of_find?_eq_some hw2) with hv | rfl
          · exact Or.inr ⟨w2, hv, rfl, rfl⟩
          · exact Or.inr ⟨w1, List.mem_of_find?_eq_some hw1, rfl, rfl⟩
      · exact Or.inl rfl

theorem processReferralReward_idempotent_witness :
    processReferralReward (processReferralReward sAliceBob 2 9) 2 11
        = processReferralReward sAliceBob 2 9
    ∧ processReferralReward sDeposit150 2 12 = sDeposit150 :=
  ⟨(processReferralReward_idempotent sAliceBob 2 9 11).1,
    (processReferralReward_idempotent sDeposit150 2 12 12).2.1
      (Or.inr (Or.inl rfl))⟩

/-- C5 (counterexample): transaction 1 is `approved` in the reachable
state `sApproved`, yet one further admin call moves it to `rejected` —
terminal statuses are not stable under `updateTransactionStatus`. -/
theorem approved_transaction_later_rejected :
    Reachable sApproved ∧ Reachable sRejected
    ∧ (sApproved.transactions.find? (fun t => t.id = 1)).map Txn.status
        = some TxStatus.approved
    ∧ (sRejected.transactions.find? (fun t => t.id = 1)).map Txn.status
        = some TxStatus.rejected := by
  refine ⟨?_, ?_, by decide, by decide⟩
  · exact Reachable.adminUpdate sDeposit50 1 TxStatus.approved 6
      (Reachable.deposit sAlice 1 50 ['u'] 5
        (Reachable.register MemStorage.init ['a'] ['p'] none 0 Reachable.init))
  · exact Reachable.adminUpdate sApproved 1 TxStatus.rejected 8
      (Reachable.adminUpdate sDeposit50 1 TxStatus.approved 6
        (Reachable.deposit sAlice 1 50 ['u'] 5
          (Reachable.register MemStorage.init ['a'] ['p'] none 0 Reachable.init)))

/-- C5 (amended): `updateTransactionStatus` stores the requested status
unconditionally — including `approved → rejected` and
`rejected → approved` — so only the wallet credit, not the status field,
is guarded: the users map is untouched unless the transition enters
`approved` from a non-approved status. -/
theorem updateTransactionStatus_sets_requested_status {s : MemStorage}
    {txId : Nat} {tx : Txn} (st : TxStatus)
    (hfind : s.transactions.find? (fun v => v.id = txId) = some tx) :
    ∃ r s', updateTransactionStatus s txId st = some (r, s') ∧
      s'.transactions.find? (fun v => v.id = txId)
          = some { tx with status := st } ∧
      (¬(st = TxStatus.approved ∧ tx.status ≠ TxStatus.approved) →
        s'.users = s.users) := by
  have htxid : tx.id = txId := (find?_txn_eq_some hfind).2
  have hmem : tx ∈ s.transactions := (find?_txn_eq_some hfind).1
  have hany : s.transactions.any (fun v => v.id = txId) = true :=
    htxid ▸ any_of_mem_txnId hmem
  have hfindSet : (txnsSet s.transactions txId
      { tx with status := st }).find? (fun v => v.id = txId)
      = some { tx with status := st } :=
    find?_txnsSet_self (by simpa using htxid) hany
  unfold updateTransactionStatus
  simp only [hfind]
  by_cases hcond : st = TxStatus.approved ∧ tx.status ≠ TxStatus.approved
  · rw [if_pos hcond]
    cases hc : updateWalletBalance
        { s with transactions := (txnsSet s.transactions txId
          { tx with status := st }) } tx.userId tx.amount with
    | none =>
      exact ⟨none, _, rfl, hfindSet, fun hn => absurd hcond hn⟩
    | some p =>
      obtain ⟨w, hg, hpair⟩ := updateWalletBalance_eq_some hc
      refine ⟨some { tx with status := st }, p.2, rfl, ?_,
        fun hn => absurd hcond hn⟩
      have h2 : p.2 = { s with
          transactions := (txnsSet s.transactions txId { tx with status := st })
          users := (usersSet ({ s with transactions :=
              (txnsSet s.transactions txId { tx with status := st }) }).users
            tx.userId { w with walletBalance := w.walletBalance + tx.amount }) } :=
        congrArg Prod.snd hpair
      rw [h2]
      exact hfindSet
  · rw [if_neg hcond]
    exact ⟨some { tx with status := st }, _, rfl, hfindSet, fun _ => rfl⟩

theorem updateTransactionStatus_sets_requested_status_witness :
    ∃ r s', updateTransactionStatus sApproved 1 TxStatus.rejected
        = some (r, s') ∧
      s'.transactions.find? (fun v => v.id = 1)
          = some { tx1Approved with status := TxStatus.rejected } ∧
      (¬(TxStatus.rejected = TxStatus.approved ∧
          tx1Approved.status ≠ TxStatus.approved) →
        s'.users = sApproved.users) :=
  updateTransactionStatus_sets_requested_status TxStatus.rejected (by decide)

/-- C6 (counterexample): the deposit payload is not checked for
positivity, so a deposit of -50 is a public operation; it drives user 1's
wallet balance to -50 in a reachable state. -/
theorem negative_balance_reachable :
    Reachable sNegative
    ∧ (getUser sNegative 1).map User.walletBalance = some (-50)
    ∧ ((-50 : ℤ) < 0) := by
  refine ⟨?_, by decide, by decide⟩
  exact Reachable.deposit sAlice 1 (-50) ['u'] 3
    (Reachable.register MemStorage.init ['a'] ['p'] none 0 Reachable.init)

/-- C6 (amended): under every sequence of the public operations in which
each deposit amount is non-negative, every user's wallet balance is
non-negative. -/
theorem reachableNN_balances_nonneg {s : MemStorage} (hs : ReachableNN s) :
    ∀ u ∈ s.users, 0 ≤ u.walletBalance :=
  (reachableNN_nonNegState hs).1

theorem reachableNN_balances_nonneg_witness :
    (0 : ℤ) ≤ aliceAfterDeposit.walletBalance :=
  reachableNN_balances_nonneg
    (ReachableNN.deposit sAliceBob 2 150 ['u'] 10 (by decide)
      (ReachableNN.register sAlice ['b'] ['p']
        (some ['U', 'S', 'E', 'R', '0', '0', '0', '0']) 1
        (ReachableNN.register MemStorage.init ['a'] ['p'] none 0
          ReachableNN.init)))
    aliceAfterDeposit (by decide)

/-- C7 (counterexample): `generateReferCode` draws two random bytes with
no uniqueness check, so two `createUser` calls whose draws coincide
produce two distinct users carrying the same refer code — the generated
code is not globally unique. -/
theorem referCode_collision :
    cu2.1.referCode = cu1.1.referCode
    ∧ cu2.1.id ≠ cu1.1.id
    ∧ cu1.1 ∈ cu2.2.users ∧ cu2.1 ∈ cu2.2.users := by
  decide

/-- C7 (amended): in every reachable store, `createUser` returns a user
whose id differs from every existing user's id, whose balance is zero,
whose `referralRewardClaimed` flag is `"no"`, and whose refer code is
exactly `generateReferCode` of the random draw — unique only when the
draws are distinct, since no uniqueness check is performed. -/
theorem createUser_spec {s : MemStorage} (hs : Reachable s) (un pw : Str)
    (rb : Option Str) (rnd : Nat) :
    (∀ v ∈ s.users, v.id ≠ (createUser s un pw rb rnd).1.id)
    ∧ (createUser s un pw rb rnd).1.walletBalance = 0
    ∧ (createUser s un pw rb rnd).1.referralRewardClaimed = ['n', 'o']
    ∧ (createUser s un pw rb rnd).1.referCode = generateReferCode rnd
    ∧ (createUser s un pw rb rnd).1 ∈ (createUser s un pw rb rnd).2.users
    ∧ (createUser s un pw rb rnd).2.currentId = s.currentId + 1 := by
  have hb := reachable_idsBound hs
  have hnotin : s.users.any (fun v => v.id = s.currentId) = false := by
    cases hany : s.users.any (fun v => v.id = s.currentId) with
    | false => rfl
    | true =>
      exfalso
      rcases List.any_eq_true.mp hany with ⟨v, hv, hvid⟩
      simp only [decide_eq_true_eq] at hvid
      exact absurd (hvid ▸ hb v hv) (lt_irrefl _)
  refine ⟨?_, rfl, rfl, rfl, ?_, rfl⟩
  · intro v hv h
    have := hb v hv
    rw [h] at this
    exact absurd this (lt_irrefl _)
  · show (createUser s un pw rb rnd).1 ∈
      usersSet s.users s.currentId (createUser s un pw rb rnd).1
    unfold usersSet
    rw [if_neg (by simp [hnotin])]
    exact List.mem_append_right _ (List.mem_singleton_self _)

theorem createUser_spec_witness :
    (∀ v ∈ sAlice.users, v.id ≠ (createUser sAlice ['c'] ['p'] none 3).1.id)
    ∧ (createUser sAlice ['c'] ['p'] none 3).1.walletBalance = 0
    ∧ (createUser sAlice ['c'] ['p'] none 3).1.referralRewardClaimed
        = ['n', 'o']
    ∧ (createUser sAlice ['c'] ['p'] none 3).1.referCode
        = generateReferCode 3
    ∧ (createUser sAlice ['c'] ['p'] none 3).1
        ∈ (createUser sAlice ['c'] ['p'] none 3).2.users
    ∧ (createUser sAlice ['c'] ['p'] none 3).2.currentId
        = sAlice.currentId + 1 :=
  createUser_spec
    (Reachable.register MemStorage.init ['a'] ['p'] none 0 Reachable.init)
    ['c'] ['p'] none 3

/-- C8: rejecting a found pending transaction through the admin flow only
rewrites that transaction's status to `rejected`: the users map (hence
every wallet balance and every `referralRewardClaimed` flag) is exactly
the old one, and no transaction is created, whatever the amount. -/
theorem adminReject_frame {s : MemStorage} {txId : Nat} {tx : Txn}
    (now : Nat)
    (hfind : s.transactions.find? (fun v => v.id = txId) = some tx)
    (hpend : tx.status = TxStatus.pending) :
    adminUpdateTransaction s txId TxStatus.rejected now =
      { s with transactions := (txnsSet s.transactions txId
          { tx with status := TxStatus.rejected }) }
    ∧ (txnsSet s.transactions txId
        { tx with status := TxStatus.rejected }).find?
        (fun v => v.id = txId) = some { tx with status := TxStatus.rejected } := by
  have htxid : tx.id = txId := (find?_txn_eq_some hfind).2
  have hmem : tx ∈ s.transactions := (find?_txn_eq_some hfind).1
  have hany : s.transactions.any (fun v => v.id = txId) = true :=
    htxid ▸ any_of_mem_txnId hmem
  refine ⟨?_, find?_txnsSet_self (by simpa using htxid) hany⟩
  unfold adminUpdateTransaction
  have h1 : updateTransactionStatus s txId TxStatus.rejected =
      some (some { tx with status := TxStatus.rejected },
        { s with transactions := (txnsSet s.transactions txId
          { tx with status := TxStatus.rejected }) }) := by
    unfold updateTransactionStatus
    simp only [hfind]
    rw [if_neg (by simp)]
  rw [h1]
  rfl

theorem adminReject_frame_witness :
    adminUpdateTransaction sDeposit50 1 TxStatus.rejected 8 =
      { sDeposit50 with transactions := (txnsSet sDeposit50.transactions 1
          { tx1Pending with status := TxStatus.rejected }) }
    ∧ (txnsSet sDeposit50.transactions 1
        { tx1Pending with status := TxStatus.rejected }).find?
        (fun v => v.id = 1)
        = some { tx1Pending with status := TxStatus.rejected } :=
  adminReject_frame 8 (by decide) (by decide)

/-- C9: `getAdminStats` reports `totalUsers` as the user count,
`totalDeposits` as the sum of the amounts of all transactions with
status `approved` (over all users, regardless of type), and
`todayDeposits` as the same sum restricted to transactions created at or
after the current day's local midnight. -/
theorem getAdminStats_sums (s : MemStorage) (midnight : Nat) :
    (getAdminStats s midnight).totalUsers = s.users.length
    ∧ (getAdminStats s midnight).totalDeposits
        = (s.transactions.map
            (fun t => if t.status = TxStatus.approved then t.amount else 0)).sum
    ∧ (getAdminStats s midnight).todayDeposits
        = (s.transactions.map
            (fun t => if t.status = TxStatus.approved ∧ midnight ≤ t.createdAt
              then t.amount else 0)).sum := by
  refine ⟨rfl, ?_, ?_⟩
  · show (s.transactions.filter
        (fun t => t.status = TxStatus.approved)).foldl
        (fun acc t => acc + t.amount) 0 = _
    rw [foldl_filter_amount, zero_add]
    simp only [decide_eq_true_eq]
  · show ((s.transactions.filter
        (fun t => t.status = TxStatus.approved)).filter
        (fun t => midnight ≤ t.createdAt)).foldl
        (fun acc t => acc + t.amount) 0 = _
    rw [foldl_filter2_amount, zero_add]
    simp only [decide_eq_true_eq]

/-- C10: in every reachable state, `getReferralStats` reports
`totalInvites = 0` for every user id: it counts users whose `referredBy`
equals the decimal string of the id, while registration only ever stores
refer codes of the form `USER` + four hex digits — which start with `'U'`
and therefore never equal a decimal digit string. -/
theorem totalInvites_zero {s : MemStorage} (hs : Reachable s) (uid : Nat) :
    (getReferralStats s uid).totalInvites = 0 := by
  have hg := reachable_goodUsers hs
  show (s.users.filter
      (fun u => u.referredBy = some (natToString uid))).length = 0
  rw [List.length_eq_zero, List.filter_eq_nil_iff]
  intro u hu
  simp only [decide_eq_true_eq]
  intro hEq
  have h1 := (hg u hu).2 (natToString uid) hEq
  have h2 : 'U' ∈ natToString uid :=
    List.mem_of_mem_head? (Option.mem_def.mpr h1)
  rcases mem_natToString h2 with ⟨m, hm⟩
  exact decChar_ne_U m hm.symm

theorem totalInvites_zero_witness :
    (getReferralStats sDeposit150 1).totalInvites = 0 :=
  totalInvites_zero
    (Reachable.deposit sAliceBob 2 150 ['u'] 10
      (Reachable.register sAlice ['b'] ['p']
        (some ['U', 'S', 'E', 'R', '0', '0', '0', '0']) 1
        (Reachable.register MemStorage.init ['a'] ['p'] none 0
          Reachable.init)))
    1
